import Mathlib

/-!
Verification of the PlusLib specification claims.

The repository excerpt under verification contains the phantom-registration
test harness (`vtkPhantomRegistrationTest.cxx`); the Transform Graph, the
Synchronized Acquisition Buffer and the Rigid Point-Set Registration engine
that the specification describes are not part of the excerpt, so those
components are modelled from the specification text, while the functions of
the test file (`CompareRegistrationResultsWithBaseline`, the landmark
acquisition loop of `main`) are embedded from the source.
-/

namespace PlusSpec

open scoped Matrix

/-! ## Transform graph (spec-modelled)

Modelled from the spec: the Transform Graph component (section 4.1) is not
present in the source excerpt (only its caller `vtkTransformRepository`
usage in the test), so edges, `setTransform` and `getTransform` are
modelled from the specification text.  Matrices are 4x4 rational matrices
(the spec's floating-point matrices idealised over `ℚ`).  The metadata
fields `timestamp`, `errorEstimate` and `computed` of a `TransformEdge`
are omitted: no claim under verification depends on them, and the
error-estimate tie-break between equal-length paths is therefore not
modelled either (path search picks the first shortest path found).
-/

abbrev Mat4 := Matrix (Fin 4) (Fin 4) ℚ

/-- Executable matrix inverse over `ℚ`, written with the explicit
adjugate formula so that it can be evaluated; it agrees with Mathlib's
noncomputable `Inv.inv` on all matrices (both send singular matrices
to `0`). -/
def qInv (M : Mat4) : Mat4 := (M.det)⁻¹ • M.adjugate

theorem qInv_eq_inv (M : Mat4) : qInv M = M⁻¹ := by
  rw [Matrix.inv_def, qInv, Ring.inverse_eq_inv]

/-- Modelled from the spec: a directed transform edge between two named
coordinate frames, carrying the 4x4 matrix and its validity flag. -/
structure TransformEdge where
  src : String
  dst : String
  matrix : Mat4
  valid : Bool

/-- Error taxonomy of the transform graph (spec section 7). -/
inductive GraphError where
  | invalidFrameName
  | noPathFound
deriving DecidableEq

/-- Modelled from the spec: the graph stores at most one direct edge per
ordered `(from, to)` pair; we represent the edge set as a list in which
`setTransform` replaces any previous edge for the same pair. -/
abbrev Graph := List TransformEdge

/-- The direct edge stored for the ordered pair `(a, b)`, if any. -/
def findDirect (g : Graph) (a b : String) : Option TransformEdge :=
  g.find? (fun e => decide (e.src = a ∧ e.dst = b))

/-- Modelled from the spec: `setTransform(from, to, matrix, valid)` inserts
or overwrites the direct edge `(from, to)`; fails with `InvalidFrameName`
if either name is empty. -/
def setTransform (g : Graph) (a b : String) (M : Mat4) (v : Bool) :
    Except GraphError Graph :=
  if a = "" ∨ b = "" then .error .invalidFrameName
  else .ok (⟨a, b, M, v⟩ :: g.filter (fun e => !decide (e.src = a ∧ e.dst = b)))

/-- One traversal step of a path through the graph: the matrix to apply
(already inverted when the edge is traversed backward) and the validity
flag of the underlying edge. -/
structure Step where
  matrix : Mat4
  valid : Bool

/-- Neighbours of a frame, treating the edges as bidirectional: traversing
an edge forward applies its matrix, traversing it backward applies the
inverse. -/
def nbrs (g : Graph) (x : String) : List (String × Step) :=
  g.filterMap (fun e => if e.src = x then some (e.dst, ⟨e.matrix, e.valid⟩) else none) ++
    g.filterMap (fun e => if e.dst = x then some (e.src, ⟨qInv e.matrix, e.valid⟩) else none)

/-- All frame names mentioned by the edge set. -/
def allNodes (g : Graph) : List String := g.map (·.src) ++ g.map (·.dst)

/-- The frames already discovered by the search. -/
def keys (acc : List (String × List Step)) : List String := acc.map (·.1)

/-- Keep, of a list of freshly generated `(frame, path)` candidates, the
first candidate for each frame not yet known. -/
def addNew (known : List String) :
    List (String × List Step) → List (String × List Step)
  | [] => []
  | (y, p) :: rest =>
    if y ∈ known then addNew known rest else (y, p) :: addNew (y :: known) rest

/-- All one-step extensions of the already discovered paths. -/
def candidates (g : Graph) (acc : List (String × List Step)) :
    List (String × List Step) :=
  acc.flatMap (fun xp => (nbrs g xp.1).map (fun ys => (ys.1, xp.2 ++ [ys.2])))

/-- One round of breadth-first expansion: every frame reachable in one
more step from a discovered frame is added, keeping the already
discovered (hence shorter) paths. -/
def expandBfs (g : Graph) (acc : List (String × List Step)) :
    List (String × List Step) :=
  acc ++ addNew (keys acc) (candidates g acc)

/-- Iterated breadth-first expansion. -/
def explore (g : Graph) : Nat → List (String × List Step) → List (String × List Step)
  | 0, acc => acc
  | n + 1, acc => explore g n (expandBfs g acc)

/-- Modelled from the spec: breadth-first search from `a` for a path to
`b`, treating edges as bidirectional; enough rounds are run to surely
exhaust the reachable frames. -/
def bfsPath (g : Graph) (a b : String) : Option (List Step) :=
  ((explore g ((allNodes g).length + 1) [(a, [])]).find? (fun e => decide (e.1 = b))).map (·.2)

/-- Modelled from the spec: the path `getTransform` settles on — the
direct edge if one exists, the inverted reverse edge if only `(to, from)`
exists, otherwise the first shortest path found by breadth-first search. -/
def chosenPath (g : Graph) (a b : String) : Option (List Step) :=
  match findDirect g a b with
  | some e => some [⟨e.matrix, e.valid⟩]
  | none =>
    match findDirect g b a with
    | some e => some [⟨qInv e.matrix, e.valid⟩]
    | none => bfsPath g a b

/-- Matrices of a path composed in traversal order. -/
def composePath (p : List Step) : Mat4 := p.foldl (fun acc s => s.matrix * acc) 1

/-- A composed transform is valid when every edge on the path is valid. -/
def pathValid (p : List Step) : Bool := p.all (·.valid)

/-- Modelled from the spec: `getTransform(from, to)` returns the composed
matrix together with its validity, or fails with `NoPathFound` when no
path exists. -/
def getTransform (g : Graph) (a b : String) :
    Except GraphError (Mat4 × Bool) :=
  match chosenPath g a b with
  | some p => .ok (composePath p, pathValid p)
  | none => .error .noPathFound

/-- Two frames are adjacent when some stored edge joins them, in either
direction. -/
def adjacent (g : Graph) (x y : String) : Prop :=
  ∃ e ∈ g, (e.src = x ∧ e.dst = y) ∨ (e.dst = x ∧ e.src = y)

/-- A path of edges exists between two frames (edges taken as
bidirectional, as the spec prescribes for path search). -/
def Reachable (g : Graph) (a b : String) : Prop :=
  Relation.ReflTransGen (adjacent g) a b

/-! ### Auxiliary lemmas about the breadth-first search -/

theorem append_self_right_nil {α : Type} {l t : List α} (h : l ++ t = l) : t = [] := by
  have hlen := congrArg List.length h
  simp at hlen
  exact hlen

theorem addNew_mem_notin_known {known : List String}
    {cands : List (String × List Step)} {y : String} {p : List Step}
    (h : (y, p) ∈ addNew known cands) : y ∉ known := by
  induction cands generalizing known with
  | nil => simp [addNew] at h
  | cons c rest ih =>
    rw [addNew] at h
    split at h
    · exact ih h
    · rcases List.mem_cons.mp h with heq | hmem
      · rename_i hnot
        cases heq
        exact hnot
      · intro hy
        exact (ih hmem) (List.mem_cons_of_mem _ hy)

theorem addNew_subset {known : List String}
    {cands : List (String × List Step)} {yp : String × List Step}
    (h : yp ∈ addNew known cands) : yp ∈ cands := by
  induction cands generalizing known with
  | nil => simp [addNew] at h
  | cons c rest ih =>
    rw [addNew] at h
    split at h
    · exact List.mem_cons_of_mem _ (ih h)
    · rcases List.mem_cons.mp h with heq | hmem
      · exact heq ▸ List.mem_cons_self _ _
      · exact List.mem_cons_of_mem _ (ih hmem)

theorem addNew_eq_nil {known : List String}
    {cands : List (String × List Step)} (h : addNew known cands = [])
    {yp : String × List Step} (hm : yp ∈ cands) : yp.1 ∈ known := by
  induction cands generalizing known with
  | nil => simp at hm
  | cons c rest ih =>
    rw [addNew] at h
    split at h
    · rcases List.mem_cons.mp hm with heq | hmem
      · rename_i hin
        exact heq ▸ hin
      · exact ih h hmem
    · exact absurd h (by simp)

theorem keys_nodup_addNew {known : List String}
    {cands : List (String × List Step)} : (keys (addNew known cands)).Nodup := by
  induction cands generalizing known with
  | nil => simp [addNew, keys]
  | cons c rest ih =>
    rw [addNew]
    split
    · exact ih
    · refine List.Nodup.cons ?_ ih
      intro hc
      rcases List.mem_map.mp hc with ⟨yp, hyp, hfst⟩
      rcases yp with ⟨y, p⟩
      cases hfst
      exact (addNew_mem_notin_known hyp) (List.mem_cons_self _ _)

theorem nbrs_mem_allNodes {g : Graph} {x y : String} {s : Step}
    (h : (y, s) ∈ nbrs g x) : y ∈ allNodes g := by
  rcases List.mem_append.mp h with hf | hb
  · rcases List.mem_filterMap.mp hf with ⟨e, he, hcond⟩
    split at hcond
    · cases hcond
      exact List.mem_append.mpr (Or.inr (List.mem_map.mpr ⟨e, he, rfl⟩))
    · cases hcond
  · rcases List.mem_filterMap.mp hb with ⟨e, he, hcond⟩
    split at hcond
    · cases hcond
      exact List.mem_append.mpr (Or.inl (List.mem_map.mpr ⟨e, he, rfl⟩))
    · cases hcond

theorem adjacent_of_nbrs {g : Graph} {x y : String} {s : Step}
    (h : (y, s) ∈ nbrs g x) : adjacent g x y := by
  rcases List.mem_append.mp h with hf | hb
  · rcases List.mem_filterMap.mp hf with ⟨e, he, hcond⟩
    split at hcond
    · cases hcond
      exact ⟨e, he, Or.inl ⟨by assumption, rfl⟩⟩
    · cases hcond
  · rcases List.mem_filterMap.mp hb with ⟨e, he, hcond⟩
    split at hcond
    · cases hcond
      exact ⟨e, he, Or.inr ⟨by assumption, rfl⟩⟩
    · cases hcond

theorem nbrs_of_adjacent {g : Graph} {x y : String}
    (h : adjacent g x y) : ∃ s, (y, s) ∈ nbrs g x := by
  rcases h with ⟨e, he, hdir | hrev⟩
  · refine ⟨⟨e.matrix, e.valid⟩, List.mem_append.mpr (Or.inl ?_)⟩
    exact List.mem_filterMap.mpr ⟨e, he, by rw [if_pos hdir.1, hdir.2]⟩
  · refine ⟨⟨qInv e.matrix, e.valid⟩, List.mem_append.mpr (Or.inr ?_)⟩
    exact List.mem_filterMap.mpr ⟨e, he, by rw [if_pos hrev.1, hrev.2]⟩

theorem explore_fix {g : Graph} {acc : List (String × List Step)}
    (h : expandBfs g acc = acc) : ∀ n, explore g n acc = acc := by
  intro n
  induction n with
  | zero => rfl
  | succ n ih => rw [explore, h, ih]

theorem expandBfs_ne_grows {g : Graph} {acc : List (String × List Step)}
    (h : expandBfs g acc ≠ acc) :
    (keys acc).length + 1 ≤ (keys (expandBfs g acc)).length := by
  have hne : addNew (keys acc) (candidates g acc) ≠ [] := by
    intro hnil
    exact h (by rw [expandBfs, hnil, List.append_nil])
  have h1 : 1 ≤ (addNew (keys acc) (candidates g acc)).length := by
    rcases List.exists_cons_of_ne_nil hne with ⟨c, t, hct⟩
    rw [hct]; simp
  simp only [expandBfs, keys, List.map_append, List.length_append,
    List.length_map] at h1 ⊢
  omega

theorem explore_progress (g : Graph) :
    ∀ (n : Nat) (acc : List (String × List Step)),
      expandBfs g (explore g n acc) = explore g n acc ∨
        (keys acc).length + n ≤ (keys (explore g n acc)).length := by
  intro n
  induction n with
  | zero => intro acc; exact Or.inr (by simp [explore])
  | succ n ih =>
    intro acc
    rw [explore]
    by_cases hfix : expandBfs g acc = acc
    · rw [hfix, explore_fix hfix]
      exact Or.inl hfix
    · rcases ih (expandBfs g acc) with hl | hr
      · exact Or.inl hl
      · refine Or.inr (le_trans ?_ hr)
        have := expandBfs_ne_grows hfix
        omega

theorem explore_mem_mono {g : Graph} {acc : List (String × List Step)}
    {yp : String × List Step} (h : yp ∈ acc) :
    ∀ n, yp ∈ explore g n acc := by
  intro n
  induction n generalizing acc with
  | zero => exact h
  | succ n ih =>
    rw [explore]
    exact ih (List.mem_append.mpr (Or.inl h))

theorem expandBfs_keys_nodup {g : Graph} {acc : List (String × List Step)}
    (h : (keys acc).Nodup) : (keys (expandBfs g acc)).Nodup := by
  rw [expandBfs, keys, List.map_append]
  refine List.Nodup.append h keys_nodup_addNew ?_
  intro y hy hynew
  rcases List.mem_map.mp hynew with ⟨⟨z, p⟩, hzp, hz⟩
  cases hz
  exact (addNew_mem_notin_known hzp) hy

theorem expandBfs_keys_subset {g : Graph} {a : String}
    {acc : List (String × List Step)}
    (h : keys acc ⊆ a :: allNodes g) :
    keys (expandBfs g acc) ⊆ a :: allNodes g := by
  rw [expandBfs, keys, List.map_append]
  intro y hy
  rcases List.mem_append.mp hy with hold | hnew
  · exact h hold
  · rcases List.mem_map.mp hnew with ⟨⟨z, p⟩, hzp, hz⟩
    cases hz
    rcases List.mem_flatMap.mp (addNew_subset hzp) with ⟨xp, _, hcand⟩
    rcases List.mem_map.mp hcand with ⟨ys, hys, heq⟩
    have : ys.1 = z := congrArg Prod.fst heq
    subst this
    exact List.mem_cons_of_mem _ (nbrs_mem_allNodes (y := ys.1) (s := ys.2) hys)

theorem explore_keys_invariant {g : Graph} {a : String} :
    ∀ (n : Nat) (acc : List (String × List Step)),
      (keys acc).Nodup → keys acc ⊆ a :: allNodes g →
      (keys (explore g n acc)).Nodup ∧ keys (explore g n acc) ⊆ a :: allNodes g := by
  intro n
  induction n with
  | zero => intro acc h1 h2; exact ⟨h1, h2⟩
  | succ n ih =>
    intro acc h1 h2
    rw [explore]
    exact ih _ (expandBfs_keys_nodup h1) (expandBfs_keys_subset h2)

theorem keys_length_le {a : String} {g : Graph}
    {l : List String} (hnd : l.Nodup) (hsub : l ⊆ a :: allNodes g) :
    l.length ≤ (allNodes g).length + 1 := by
  have h1 : l.toFinset.card = l.length := List.toFinset_card_of_nodup hnd
  have h2 : l.toFinset ⊆ (a :: allNodes g).toFinset := by
    intro x hx
    rw [List.mem_toFinset] at hx ⊢
    exact hsub hx
  have h3 : (a :: allNodes g).toFinset.card ≤ (a :: allNodes g).length :=
    List.toFinset_card_le _
  have h4 := Finset.card_le_card h2
  simp only [List.length_cons] at h3
  omega

theorem expandBfs_closed {g : Graph} {acc : List (String × List Step)}
    (h : expandBfs g acc = acc) {x y : String}
    (hx : x ∈ keys acc) (hxy : adjacent g x y) : y ∈ keys acc := by
  have hnil : addNew (keys acc) (candidates g acc) = [] :=
    append_self_right_nil h
  rcases List.mem_map.mp hx with ⟨⟨z, p⟩, hzp, hz⟩
  cases hz
  rcases nbrs_of_adjacent hxy with ⟨s, hs⟩
  have hcand : (y, p ++ [s]) ∈ candidates g acc :=
    List.mem_flatMap.mpr ⟨(z, p), hzp, List.mem_map.mpr ⟨(y, s), hs, rfl⟩⟩
  exact addNew_eq_nil hnil hcand

theorem explore_sound {g : Graph} {a : String} :
    ∀ (n : Nat) (acc : List (String × List Step)),
      (∀ xp ∈ acc, Reachable g a xp.1) →
      ∀ xp ∈ explore g n acc, Reachable g a xp.1 := by
  intro n
  induction n with
  | zero => intro acc h; exact h
  | succ n ih =>
    intro acc h
    rw [explore]
    refine ih _ ?_
    intro xp hxp
    rcases List.mem_append.mp hxp with hold | hnew
    · exact h _ hold
    · rcases List.mem_flatMap.mp (addNew_subset hnew) with ⟨yp, hyp, hcand⟩
      rcases List.mem_map.mp hcand with ⟨ys, hys, heq⟩
      cases heq
      exact Relation.ReflTransGen.tail (h _ hyp) (adjacent_of_nbrs hys)

theorem explore_complete {g : Graph} {a b : String}
    (h : Reachable g a b) :
    b ∈ keys (explore g ((allNodes g).length + 1) [(a, [])]) := by
  set N := (allNodes g).length + 1 with hN
  set F := explore g N [(a, [])] with hF
  have hinv : (keys F).Nodup ∧ keys F ⊆ a :: allNodes g := by
    refine explore_keys_invariant N [(a, [])] (by simp [keys]) ?_
    intro y hy
    simp [keys] at hy
    simp [hy]
  have hfix : expandBfs g F = F := by
    rcases explore_progress g N [(a, [])] with hl | hr
    · exact hl
    · exfalso
      have hbound := keys_length_le hinv.1 hinv.2
      rw [← hF] at hr
      simp only [keys, List.length_map, List.length_cons, List.length_nil] at hbound hr
      omega
  have ha : a ∈ keys F := by
    have : (a, ([] : List Step)) ∈ F := explore_mem_mono (by simp) N
    exact List.mem_map.mpr ⟨(a, []), this, rfl⟩
  induction h with
  | refl => exact ha
  | tail hac hcb ih => exact expandBfs_closed hfix ih hcb

theorem getTransform_of_chosen {g : Graph} {a b : String} {p : List Step}
    (h : chosenPath g a b = some p) :
    getTransform g a b = .ok (composePath p, pathValid p) := by
  unfold getTransform
  rw [h]

theorem getTransform_error_iff {g : Graph} {a b : String} :
    getTransform g a b = .error .noPathFound ↔ chosenPath g a b = none := by
  unfold getTransform
  cases h : chosenPath g a b <;> simp

/-! ### Claims C1 and C2 -/

/-- C1: for every edge `(A, B)` with matrix `M` inserted via `setTransform`,
a subsequent `getTransform(B, A)` — with no reverse edge ever inserted —
returns exactly `inverse(M)` (exactly, since the model works over `ℚ`),
without requiring a separate reverse insert. -/
theorem c1_reverse_query_returns_inverse
    (g g' : Graph) (a b : String) (M : Mat4) (v : Bool)
    (hset : setTransform g a b M v = .ok g')
    (hrev : findDirect g' b a = none) :
    getTransform g' b a = .ok (M⁻¹, v) := by
  rw [setTransform] at hset
  split at hset
  · exact absurd hset (by simp)
  · have hg : (⟨a, b, M, v⟩ : TransformEdge) ::
        g.filter (fun e => !decide (e.src = a ∧ e.dst = b)) = g' := by
      injection hset
    subst hg
    have hfwd : findDirect (⟨a, b, M, v⟩ ::
        g.filter (fun e => !decide (e.src = a ∧ e.dst = b))) a b =
        some ⟨a, b, M, v⟩ := by
      simp [findDirect, List.find?]
    have hchosen : chosenPath (⟨a, b, M, v⟩ ::
        g.filter (fun e => !decide (e.src = a ∧ e.dst = b))) b a =
        some [⟨qInv M, v⟩] := by
      unfold chosenPath
      rw [hrev, hfwd]
    rw [getTransform_of_chosen hchosen]
    simp [composePath, pathValid, qInv_eq_inv]

/-- Test matrix used by the C1 witness: a rigid translation by (2, 3, 4). -/
def c1Mat : Mat4 := !![1, 0, 0, 2; 0, 1, 0, 3; 0, 0, 1, 4; 0, 0, 0, 1]

theorem c1_reverse_query_returns_inverse_witness :
    getTransform [⟨"A", "B", c1Mat, true⟩] "B" "A" = .ok (c1Mat⁻¹, true) :=
  c1_reverse_query_returns_inverse [] [⟨"A", "B", c1Mat, true⟩] "A" "B" c1Mat
    true rfl rfl

/-- C2: for every query `getTransform(from, to)`, if the path the graph
settles on contains an invalid edge the query still returns the composed
best-effort matrix with `valid = false`, and the query fails with
`NoPathFound` exactly when no path of edges joins the two frames. -/
theorem c2_invalid_edge_gives_invalid_result_noPathFound_iff_unreachable
    (g : Graph) (a b : String) :
    (getTransform g a b = .error .noPathFound ↔ ¬ Reachable g a b) ∧
    (∀ p, chosenPath g a b = some p → (∃ s ∈ p, s.valid = false) →
      getTransform g a b = .ok (composePath p, false)) := by
  constructor
  · constructor
    · intro herr hreach
      have hcp : chosenPath g a b = none := getTransform_error_iff.mp herr
      rw [chosenPath] at hcp
      cases hd : findDirect g a b with
      | some e => rw [hd] at hcp; cases hcp
      | none =>
      rw [hd] at hcp
      cases hr : findDirect g b a with
      | some e => rw [hr] at hcp; cases hcp
      | none =>
      rw [hr] at hcp
      rw [bfsPath] at hcp
      have hb := explore_complete (g := g) (a := a) (b := b) hreach
      rcases List.mem_map.mp hb with ⟨⟨y, p⟩, hyF, hy⟩
      have hy2 : y = b := hy
      subst hy2
      have hfind : (explore g ((allNodes g).length + 1) [(a, [])]).find?
          (fun e => decide (e.1 = y)) = none := by
        cases hf : (explore g ((allNodes g).length + 1) [(a, [])]).find?
            (fun e => decide (e.1 = y)) with
        | none => rfl
        | some x => rw [hf] at hcp; cases hcp
      have hcontra := List.find?_eq_none.mp hfind ⟨y, p⟩ hyF
      simp at hcontra
    · intro hnr
      have hd : findDirect g a b = none := by
        cases hd : findDirect g a b with
        | none => rfl
        | some e =>
          exfalso
          have hmem := List.mem_of_find?_eq_some hd
          have hp := List.find?_some hd
          simp only [decide_eq_true_eq] at hp
          exact hnr (Relation.ReflTransGen.single ⟨e, hmem, Or.inl hp⟩)
      have hr : findDirect g b a = none := by
        cases hr : findDirect g b a with
        | none => rfl
        | some e =>
          exfalso
          have hmem := List.mem_of_find?_eq_some hr
          have hp := List.find?_some hr
          simp only [decide_eq_true_eq] at hp
          exact hnr (Relation.ReflTransGen.single ⟨e, hmem, Or.inr ⟨hp.2, hp.1⟩⟩)
      have hbfs : bfsPath g a b = none := by
        cases hf : (explore g ((allNodes g).length + 1) [(a, [])]).find?
            (fun e => decide (e.1 = b)) with
        | none => rw [bfsPath, hf]; rfl
        | some yp =>
          exfalso
          have hmem := List.mem_of_find?_eq_some hf
          have hp := List.find?_some hf
          simp only [decide_eq_true_eq] at hp
          have hsound := explore_sound (g := g) (a := a)
            ((allNodes g).length + 1) [(a, [])]
            (by
              intro xp hxp
              simp only [List.mem_singleton] at hxp
              rw [hxp]
              exact Relation.ReflTransGen.refl) yp hmem
          rw [hp] at hsound
          exact hnr hsound
      rw [getTransform_error_iff, chosenPath, hd, hr, hbfs]
  · intro p hp hinv
    rw [getTransform_of_chosen hp]
    have hv : pathValid p = false := by
      rw [pathValid, List.all_eq_false]
      rcases hinv with ⟨s, hs, hvf⟩
      exact ⟨s, hs, by simp [hvf]⟩
    rw [hv]

/-- Chain graph used by the C2 witness: `A → B` valid, `B → C` invalid. -/
def c2Graph : Graph := [⟨"A", "B", 1, true⟩, ⟨"B", "C", 1, false⟩]

theorem c2_invalid_edge_gives_invalid_result_noPathFound_iff_unreachable_witness :
    getTransform c2Graph "A" "C" =
      .ok (composePath [⟨1, true⟩, ⟨1, false⟩], false) :=
  (c2_invalid_edge_gives_invalid_result_noPathFound_iff_unreachable
      c2Graph "A" "C").2
    [⟨1, true⟩, ⟨1, false⟩] rfl ⟨⟨1, false⟩, by simp, rfl⟩

/-! ## Synchronized acquisition buffer (spec-modelled)

Modelled from the spec: the Synchronized Acquisition Buffer component
(section 4.2) is not present in the source excerpt, so the per-device
circular buffer, `append`, `getClosestFrame` and `buildSynchronizedFrame`
are modelled from the specification text, with timestamps idealised
over `ℚ`. -/

/-- Modelled from the spec: a device frame's payload is either an image
buffer or a pose/transform plus validity status. -/
inductive Payload where
  | image (data : List ℚ)
  | pose (m : Mat4) (valid : Bool)

/-- Modelled from the spec: one timestamped sample from one device. -/
structure DeviceFrame where
  deviceId : String
  ts : ℚ
  payload : Payload

/-- Modelled from the spec: a fixed-capacity circular buffer of device
frames in insertion order, with a freeze flag that drops appends while
reads keep serving the retained window. -/
structure Buffer where
  capacity : Nat
  frames : List DeviceFrame
  frozen : Bool

def emptyBuffer (n : Nat) : Buffer := ⟨n, [], false⟩

/-- Modelled from the spec: `append` adds the frame, overwriting the
oldest slot when the buffer is full; frames appended while frozen are
dropped. -/
def Buffer.append (b : Buffer) (f : DeviceFrame) : Buffer :=
  if b.frozen then b
  else if b.frames.length < b.capacity then ⟨b.capacity, b.frames ++ [f], b.frozen⟩
  else ⟨b.capacity, b.frames.tail ++ [f], b.frozen⟩

def Buffer.freeze (b : Buffer) : Buffer := ⟨b.capacity, b.frames, true⟩

def Buffer.resume (b : Buffer) : Buffer := ⟨b.capacity, b.frames, false⟩

/-- Oldest retained timestamp (frames are ordered logically by timestamp
comparison, not physical slot order). -/
def retainedLo (b : Buffer) : Option ℚ :=
  match b.frames with
  | [] => none
  | f :: fs => some ((fs.map (·.ts)).foldl min f.ts)

/-- Newest retained timestamp. -/
def retainedHi (b : Buffer) : Option ℚ :=
  match b.frames with
  | [] => none
  | f :: fs => some ((fs.map (·.ts)).foldl max f.ts)

/-- Modelled from the spec: `getClosestFrame` returns the retained frame
whose timestamp is closest to the target, or `NotFound` (here `none`)
when the target falls outside the retained range. -/
def Buffer.getClosestFrame (b : Buffer) (t : ℚ) : Option DeviceFrame :=
  match retainedLo b, retainedHi b with
  | some lo, some hi =>
    if t < lo ∨ hi < t then none
    else b.frames.argmin (fun fr => |fr.ts - t|)
  | _, _ => none

/-! ### Auxiliary lemmas about the buffer -/

theorem Buffer.append_not_frozen {b : Buffer} (hfr : b.frozen = false)
    (f : DeviceFrame) :
    b.append f = if b.frames.length < b.capacity
      then ⟨b.capacity, b.frames ++ [f], b.frozen⟩
      else ⟨b.capacity, b.frames.tail ++ [f], b.frozen⟩ := by
  rw [Buffer.append, if_neg (by simp [hfr])]

theorem foldl_append_window :
    ∀ (fs : List DeviceFrame) (b : Buffer), b.frozen = false →
      1 ≤ b.capacity → b.frames.length ≤ b.capacity →
      (fs.foldl Buffer.append b).frames =
        (b.frames ++ fs).drop (b.frames.length + fs.length - b.capacity) := by
  intro fs
  induction fs with
  | nil =>
    intro b hfr hcap hlen
    simp [Nat.sub_eq_zero_of_le hlen]
  | cons f fs ih =>
    intro b hfr hcap hlen
    rw [List.foldl_cons, Buffer.append_not_frozen hfr]
    by_cases hlt : b.frames.length < b.capacity
    · rw [if_pos hlt]
      have h1 := ih ⟨b.capacity, b.frames ++ [f], b.frozen⟩ hfr hcap
        (by simp; omega)
      simp only at h1
      rw [h1]
      have hidx : (b.frames ++ [f]).length + fs.length - b.capacity =
          b.frames.length + (f :: fs).length - b.capacity := by
        simp; omega
      rw [hidx]
      have hlist : (b.frames ++ [f]) ++ fs = b.frames ++ f :: fs := by
        simp
      rw [hlist]
    · have hlen_eq : b.frames.length = b.capacity := le_antisymm hlen (not_lt.mp hlt)
      have hne : b.frames ≠ [] := by
        intro h0
        rw [h0] at hlen_eq
        simp at hlen_eq
        omega
      rw [if_neg hlt]
      have htail : b.frames.tail.length = b.capacity - 1 := by
        rw [List.length_tail, hlen_eq]
      have h1 := ih ⟨b.capacity, b.frames.tail ++ [f], b.frozen⟩ hfr hcap
        (by simp [htail]; omega)
      simp only at h1
      rw [h1]
      have hidx : (b.frames.tail ++ [f]).length + fs.length - b.capacity =
          fs.length := by
        simp only [List.length_append, List.length_singleton, htail]
        omega
      rw [hidx]
      have hidx2 : b.frames.length + (f :: fs).length - b.capacity =
          fs.length + 1 := by
        simp only [List.length_cons, hlen_eq]
        omega
      rw [hidx2]
      have hdrop : (b.frames ++ f :: fs).drop (fs.length + 1) =
          ((b.frames.tail ++ [f]) ++ fs).drop fs.length := by
        rcases List.exists_cons_of_ne_nil hne with ⟨x, r, hx⟩
        rw [hx]
        simp only [List.cons_append, List.drop_succ_cons, List.tail_cons,
          List.append_assoc, List.singleton_append, List.nil_append]
      rw [hdrop]

theorem lt_foldl_min {x a : ℚ} {l : List ℚ} (hx : x < a)
    (hl : ∀ y ∈ l, x < y) : x < l.foldl min a := by
  induction l generalizing a with
  | nil => exact hx
  | cons y ys ih =>
    rw [List.foldl_cons]
    exact ih (lt_min hx (hl y (by simp))) (fun z hz => hl z (by simp [hz]))

theorem getClosestFrame_none_iff {b : Buffer} {lo hi : ℚ}
    (hlo : retainedLo b = some lo) (hhi : retainedHi b = some hi) (t : ℚ) :
    b.getClosestFrame t = none ↔ (t < lo ∨ hi < t) := by
  have hne : b.frames ≠ [] := by
    intro h0
    rw [retainedLo, h0] at hlo
    cases hlo
  unfold Buffer.getClosestFrame
  rw [hlo, hhi]
  dsimp only
  by_cases hout : t < lo ∨ hi < t
  · simp [hout]
  · rw [if_neg hout]
    simp only [hout, iff_false]
    intro hnone
    exact hne (List.argmin_eq_none.mp hnone)

/-! ### Claim C4 -/

/-- C4: appending `N + 1` frames to an empty capacity-`N` buffer evicts
exactly the oldest frame and no other; `getClosestFrame` for the evicted
frame's timestamp then returns `NotFound` (`none`), and `getClosestFrame`
returns `NotFound` exactly when the target timestamp falls outside the
retained range. -/
theorem c4_eviction_of_oldest_and_notFound_outside_range
    (N : Nat) (f0 : DeviceFrame) (rest : List DeviceFrame) (b : Buffer)
    (hN : 1 ≤ N) (hlen : rest.length = N)
    (hmono : (f0 :: rest).Pairwise (fun x y => x.ts < y.ts))
    (hb : b = (f0 :: rest).foldl Buffer.append (emptyBuffer N)) :
    b.frames = rest ∧
    b.getClosestFrame f0.ts = none ∧
    (∀ t lo hi, retainedLo b = some lo → retainedHi b = some hi →
      (b.getClosestFrame t = none ↔ t < lo ∨ hi < t)) := by
  have hframes : b.frames = rest := by
    have h := foldl_append_window (f0 :: rest) (emptyBuffer N) rfl hN
      (by simp [emptyBuffer])
    rw [hb, h]
    have hidx : (emptyBuffer N).frames.length + (f0 :: rest).length -
        (emptyBuffer N).capacity = 1 := by
      simp only [emptyBuffer, List.length_nil, List.length_cons, hlen]
      omega
    rw [hidx]
    simp [emptyBuffer]
  have hne : rest ≠ [] := by
    intro h0
    rw [h0] at hlen
    simp at hlen
    omega
  obtain ⟨r0, rtail, hr⟩ := List.exists_cons_of_ne_nil hne
  have hlo : retainedLo b = some ((rtail.map (·.ts)).foldl min r0.ts) := by
    rw [retainedLo, hframes, hr]
  have hhi : retainedHi b = some ((rtail.map (·.ts)).foldl max r0.ts) := by
    rw [retainedHi, hframes, hr]
  have hall : ∀ y ∈ rest, f0.ts < y.ts := by
    intro y hy
    exact (List.pairwise_cons.mp hmono).1 y hy
  refine ⟨hframes, ?_, ?_⟩
  · apply (getClosestFrame_none_iff hlo hhi f0.ts).mpr
    left
    apply lt_foldl_min (hall r0 (by rw [hr]; exact List.mem_cons_self _ _))
    intro y hy
    rcases List.mem_map.mp hy with ⟨fr, hfr, hts⟩
    rw [← hts]
    exact hall fr (by rw [hr]; exact List.mem_cons_of_mem _ hfr)
  · intro t lo hi hlo2 hhi2
    exact getClosestFrame_none_iff hlo2 hhi2 t

def c4F1 : DeviceFrame := ⟨"cam", 1, .image []⟩

def c4F2 : DeviceFrame := ⟨"cam", 2, .image []⟩

def c4F3 : DeviceFrame := ⟨"cam", 3, .image []⟩

theorem c4_eviction_of_oldest_and_notFound_outside_range_witness :
    ([c4F1, c4F2, c4F3].foldl Buffer.append (emptyBuffer 2)).frames =
        [c4F2, c4F3] ∧
    ([c4F1, c4F2, c4F3].foldl Buffer.append (emptyBuffer 2)).getClosestFrame
        c4F1.ts = none := by
  have h := c4_eviction_of_oldest_and_notFound_outside_range 2 c4F1 [c4F2, c4F3]
    ([c4F1, c4F2, c4F3].foldl Buffer.append (emptyBuffer 2)) (by decide) rfl
    (by decide) rfl
  exact ⟨h.1, h.2.1⟩

/-! ### Claim C3 -/

/-- Result of a synchronization request: either one frame per device, or
the partial set of devices that answered within tolerance. -/
inductive SyncResult where
  | complete (frames : List (String × DeviceFrame))
  | partialSync (frames : List (String × DeviceFrame))

/-- Modelled from the spec: a device's contribution to a synchronized
frame — its closest retained frame, accepted only when the timestamp skew
is within tolerance. -/
def deviceSample (b : Buffer) (t tol : ℚ) : Option DeviceFrame :=
  match b.getClosestFrame t with
  | none => none
  | some f => if |f.ts - t| ≤ tol then some f else none

/-- The devices that answered, with their frames. -/
def collected (ds : List (String × Buffer)) (t tol : ℚ) :
    List (String × DeviceFrame) :=
  ds.filterMap (fun d => (deviceSample d.2 t tol).map (fun f => (d.1, f)))

/-- Modelled from the spec: `buildSynchronizedFrame` calls
`getClosestFrame` for every registered device and returns a complete
`SynchronizedFrame` when all devices have a sample within
`maxSkewTolerance`, and otherwise a `PartialSync` carrying the devices
that did succeed. -/
def buildSynchronizedFrame (ds : List (String × Buffer)) (t tol : ℚ) :
    SyncResult :=
  if (collected ds t tol).length = ds.length
    then .complete (collected ds t tol)
    else .partialSync (collected ds t tol)

theorem collected_length_iff (ds : List (String × Buffer)) (t tol : ℚ) :
    (collected ds t tol).length = ds.length ↔
      ∀ d ∈ ds, (deviceSample d.2 t tol).isSome := by
  induction ds with
  | nil => simp [collected]
  | cons d ds ih =>
    rw [collected, List.filterMap_cons]
    cases hs : deviceSample d.2 t tol with
    | none =>
      simp only [Option.map_none']
      constructor
      · intro h
        exfalso
        have hle := List.length_filterMap_le
          (fun d => (deviceSample d.2 t tol).map (fun f => (d.1, f))) ds
        rw [List.length_cons] at h
        omega
      · intro h
        exact absurd (h d (List.mem_cons_self _ _)) (by simp [hs])
    | some f =>
      simp only [Option.map_some', List.length_cons]
      rw [Nat.add_right_cancel_iff]
      rw [collected] at ih
      rw [ih]
      constructor
      · intro h x hx
        rcases List.mem_cons.mp hx with hx | hx
        · rw [hx, hs]; rfl
        · exact h x hx
      · intro h x hx
        exact h x (List.mem_cons_of_mem _ hx)

theorem collected_fst (ds : List (String × Buffer)) (t tol : ℚ) :
    (collected ds t tol).map Prod.fst =
      (ds.filter (fun d => (deviceSample d.2 t tol).isSome)).map Prod.fst := by
  induction ds with
  | nil => simp [collected]
  | cons d ds ih =>
    rw [collected, List.filterMap_cons, List.filter_cons]
    cases hs : deviceSample d.2 t tol with
    | none =>
      simp only [Option.map_none', hs, Option.isSome_none,
        Bool.false_eq_true, if_false]
      exact ih
    | some f =>
      simp only [Option.map_some', hs, Option.isSome_some, if_true,
        List.map_cons]
      rw [collected] at ih
      rw [ih]

/-- C3: `buildSynchronizedFrame` returns a complete frame exactly when
every registered device has a sample within `maxSkewTolerance` of the
target timestamp (and the complete frame then carries one frame per
device), and otherwise returns `PartialSync` carrying exactly the devices
whose lookups succeeded within tolerance. -/
theorem c3_complete_iff_all_within_tolerance_else_partialSync
    (ds : List (String × Buffer)) (t tol : ℚ) :
    (buildSynchronizedFrame ds t tol = .complete (collected ds t tol) ↔
      ∀ d ∈ ds, (deviceSample d.2 t tol).isSome) ∧
    (buildSynchronizedFrame ds t tol = .partialSync (collected ds t tol) ↔
      ¬ ∀ d ∈ ds, (deviceSample d.2 t tol).isSome) ∧
    (collected ds t tol).map Prod.fst =
      (ds.filter (fun d => (deviceSample d.2 t tol).isSome)).map Prod.fst ∧
    ((∀ d ∈ ds, (deviceSample d.2 t tol).isSome) →
      (collected ds t tol).map Prod.fst = ds.map Prod.fst) := by
  refine ⟨?_, ?_, collected_fst ds t tol, ?_⟩
  · rw [buildSynchronizedFrame]
    by_cases h : (collected ds t tol).length = ds.length
    · simp only [h, if_true, true_iff]
      exact (collected_length_iff ds t tol).mp h
    · simp only [h, if_false]
      constructor
      · intro hcp
        cases hcp
      · intro hall
        exact absurd ((collected_length_iff ds t tol).mpr hall) h
  · rw [buildSynchronizedFrame]
    by_cases h : (collected ds t tol).length = ds.length
    · simp only [h, if_true]
      constructor
      · intro hcp
        cases hcp
      · intro hnall
        exact absurd ((collected_length_iff ds t tol).mp h) hnall
    · simp only [h, if_false, true_iff]
      intro hall
      exact absurd ((collected_length_iff ds t tol).mpr hall) h
  · intro hall
    rw [collected_fst ds t tol, List.filter_eq_self.mpr ?_]
    intro d hd
    exact hall d hd

def c3TrackerBuf : Buffer := ⟨2, [⟨"tracker", 5, .pose 1 true⟩], false⟩

def c3CameraBuf : Buffer := ⟨2, [⟨"camera", 100, .image []⟩], false⟩

def c3Devices : List (String × Buffer) :=
  [("tracker", c3TrackerBuf), ("camera", c3CameraBuf)]

theorem c3_complete_iff_all_within_tolerance_else_partialSync_witness :
    buildSynchronizedFrame c3Devices 5 1 =
      .partialSync (collected c3Devices 5 1) :=
  ((c3_complete_iff_all_within_tolerance_else_partialSync
      c3Devices 5 1).2.1).mpr (by
    intro hall
    have h := hall ("camera", c3CameraBuf) (by simp [c3Devices])
    have hcam : c3CameraBuf.getClosestFrame 5 = none := by
      have hlo : retainedLo c3CameraBuf = some 100 := rfl
      have hhi : retainedHi c3CameraBuf = some 100 := rfl
      rw [getClosestFrame_none_iff hlo hhi]
      left
      norm_num
    have hnone : deviceSample c3CameraBuf 5 1 = none := by
      unfold deviceSample
      rw [hcam]
    rw [hnone] at h
    simp at h)

/-! ## Landmark acquisition loop of `vtkPhantomRegistrationTest.cxx`

Embedded from the source (`main`, the loop over the eight landmarks): a
sample contributes a recorded point only when
`GetCustomFrameTransformStatus` succeeds with status `TR_OK` and the
composed stylus-tip-to-reference transform returned by `GetTransform` is
valid. -/

/-- Tracker status of a tool on one tracked frame (from PlusLib's
`TrackerStatus` enumeration; only the values relevant to the test are
modelled). -/
inductive TrackerStatus where
  | TR_OK
  | TR_MISSING
  | TR_OUT_OF_VIEW
deriving DecidableEq

/-- One acquisition sample of the test loop: the outcome of
`GetCustomFrameTransformStatus` (`none` models a `PLUS_FAIL` return), and
the matrix plus validity flag produced by
`GetTransform(StylusTipToReference)`. -/
structure AcqSample where
  statusResult : Option TrackerStatus
  tipMatrix : Mat4
  tipValid : Bool

/-- The element array built by the loop: `elements[4*j+i] = M(i,j)`,
i.e. the row-major storage of the transpose of `M`. -/
def elementsOf (M : Mat4) : Mat4 := Mᵀ

/-- `vtkMatrix4x4::PointMultiply(Elements, in, out)` transposes the
element array and then multiplies the point by it. -/
def pointMultiply (E : Mat4) (v : Fin 4 → ℚ) : Fin 4 → ℚ := Eᵀ.mulVec v

/-- The homogeneous origin `(0, 0, 0, 1)` the loop feeds to
`PointMultiply`. -/
def origin4 : Fin 4 → ℚ := ![0, 0, 0, 1]

/-- The stylus-tip position computed by the loop from the stylus-tip
matrix. -/
def tipPosition (M : Mat4) : Fin 3 → ℚ :=
  fun i => pointMultiply (elementsOf M) origin4 i.castSucc

/-- The elements-array round trip computes `M * (0,0,0,1)ᵀ`, i.e. the
translation column of the stylus-tip matrix. -/
theorem tipPosition_eq_translation_column (M : Mat4) :
    tipPosition M = fun i => M i.castSucc 3 := by
  funext i
  rw [tipPosition, pointMultiply, elementsOf, Matrix.transpose_transpose]
  simp [Matrix.mulVec, Matrix.dotProduct, origin4, Fin.sum_univ_four,
    Matrix.vecHead, Matrix.vecTail]

/-- The recorded landmarks accumulated by the acquisition loop: one
`(landmarkCounter, point)` entry per sample that passes both validity
checks. -/
def acquireLandmarks (samples : List AcqSample) : List (ℕ × (Fin 3 → ℚ)) :=
  samples.enum.filterMap (fun ks =>
    match ks.2.statusResult with
    | some .TR_OK =>
      if ks.2.tipValid then some (ks.1, tipPosition ks.2.tipMatrix) else none
    | _ => none)

/-- C7: a recorded landmark point is added for sample `k` exactly when the
tracked pose status for that sample is `TR_OK` and the composed stylus-tip
transform is valid, and then the recorded point is the tip position from
that sample's matrix. -/
theorem c7_point_recorded_iff_status_ok_and_valid
    (samples : List AcqSample) (k : ℕ) (pt : Fin 3 → ℚ) :
    (k, pt) ∈ acquireLandmarks samples ↔
      ∃ s, samples[k]? = some s ∧ s.statusResult = some .TR_OK ∧
        s.tipValid = true ∧ pt = tipPosition s.tipMatrix := by
  rw [acquireLandmarks, List.mem_filterMap]
  constructor
  · rintro ⟨⟨j, s⟩, hmem, hf⟩
    have hget : samples[j]? = some s := List.mk_mem_enum_iff_getElem?.mp hmem
    cases hst : s.statusResult with
    | none => rw [hst] at hf; cases hf
    | some st =>
      cases st with
      | TR_OK =>
        rw [hst] at hf
        by_cases hv : s.tipValid
        · rw [if_pos hv] at hf
          have hj : j = k := congrArg Prod.fst (Option.some.inj hf)
          have hpt : tipPosition s.tipMatrix = pt :=
            congrArg Prod.snd (Option.some.inj hf)
          subst hj
          exact ⟨s, hget, hst, hv, hpt.symm⟩
        · rw [if_neg hv] at hf
          cases hf
      | TR_MISSING => rw [hst] at hf; cases hf
      | TR_OUT_OF_VIEW => rw [hst] at hf; cases hf
  · rintro ⟨s, hget, hst, hv, hpt⟩
    refine ⟨(k, s), List.mk_mem_enum_iff_getElem?.mpr hget, ?_⟩
    rw [hst, if_pos hv, hpt]

/-- Sample used by the C7 witness: status `TR_OK` and a valid stylus-tip
transform. -/
def c7Good : AcqSample := ⟨some .TR_OK, 1, true⟩

/-- Sample used by the C7 witness: the tracker reports `TR_MISSING`. -/
def c7Bad : AcqSample := ⟨some .TR_MISSING, 1, true⟩

theorem c7_point_recorded_iff_status_ok_and_valid_witness :
    (0, tipPosition c7Good.tipMatrix) ∈ acquireLandmarks [c7Good, c7Bad] ∧
    ¬ (1, tipPosition c7Bad.tipMatrix) ∈ acquireLandmarks [c7Good, c7Bad] := by
  constructor
  · exact (c7_point_recorded_iff_status_ok_and_valid [c7Good, c7Bad] 0
      (tipPosition c7Good.tipMatrix)).mpr ⟨c7Good, rfl, rfl, rfl, rfl⟩
  · intro hmem
    rcases (c7_point_recorded_iff_status_ok_and_valid [c7Good, c7Bad] 1
      (tipPosition c7Bad.tipMatrix)).mp hmem with ⟨s, hget, hst, _, _⟩
    have hs : s = c7Bad := Option.some.inj hget.symm ▸ rfl
    rw [hs] at hst
    cases hst

/-! ## Baseline comparison loop of `CompareRegistrationResultsWithBaseline`

Embedded from the source (lines 302–312): the element-wise comparison of
the two 16-element transform vectors, counting an element as a failure
when both the ratio falls outside the 5 % band and the absolute
difference exceeds 0.5 mm. -/

/-- `ERROR_THRESHOLD` of the test file: the error threshold is 5 %. -/
def ERROR_THRESHOLD : ℚ := 5 / 100

/-- The comparison loop over the 16 transform elements, counting the
mismatching elements exactly as the source does. -/
def compareTransformElements (cur base : Fin 16 → ℚ) : ℕ :=
  (List.finRange 16).foldl (fun n i =>
    let ratio := 1 * cur i / base i
    let diff := |cur i - base i|
    if (ratio > 1 + ERROR_THRESHOLD ∨ ratio < 1 - ERROR_THRESHOLD) ∧
        diff > 10 * ERROR_THRESHOLD
      then n + 1 else n) 0

theorem foldl_if_count {α : Type} (p : α → Prop) [DecidablePred p] :
    ∀ (l : List α) (n : ℕ),
      l.foldl (fun n i => if p i then n + 1 else n) n =
        n + (l.filter (fun i => decide (p i))).length := by
  intro l
  induction l with
  | nil => intro n; simp
  | cons x xs ih =>
    intro n
    rw [List.foldl_cons, List.filter_cons]
    by_cases h : p x
    · simp only [h, if_true, decide_eq_true_eq, List.length_cons, ih]
      omega
    · simp only [h, if_false, decide_eq_true_eq, ih]

/-- C9: `CompareRegistrationResultsWithBaseline` counts element `i` as a
mismatch exactly when the ratio `current[i] / baseline[i]` lies outside
`[0.95, 1.05]` and the absolute difference exceeds `0.5`, and it returns
exactly the number of such elements — `0` exactly when every element
satisfies either tolerance. -/
theorem c9_mismatch_count_iff_ratio_and_difference_out_of_tolerance
    (cur base : Fin 16 → ℚ) :
    compareTransformElements cur base =
      (Finset.univ.filter (fun i : Fin 16 =>
        cur i / base i ∉ Set.Icc (0.95 : ℚ) 1.05 ∧
          (0.5 : ℚ) < |cur i - base i|)).card ∧
    (compareTransformElements cur base = 0 ↔
      ∀ i : Fin 16, cur i / base i ∈ Set.Icc (0.95 : ℚ) 1.05 ∨
        |cur i - base i| ≤ 0.5) := by
  have hequiv : ∀ i : Fin 16,
      ((1 * cur i / base i > 1 + ERROR_THRESHOLD ∨
          1 * cur i / base i < 1 - ERROR_THRESHOLD) ∧
        |cur i - base i| > 10 * ERROR_THRESHOLD) ↔
      (cur i / base i ∉ Set.Icc (0.95 : ℚ) 1.05 ∧
        (0.5 : ℚ) < |cur i - base i|) := by
    intro i
    rw [Set.mem_Icc, one_mul, ERROR_THRESHOLD]
    constructor
    · rintro ⟨hr, hd⟩
      refine ⟨?_, by linarith⟩
      rintro ⟨h1, h2⟩
      rcases hr with hr | hr <;> linarith
    · rintro ⟨hr, hd⟩
      rw [not_and_or, not_le, not_le] at hr
      refine ⟨?_, by linarith⟩
      rcases hr with hr | hr
      · right; linarith
      · left; linarith
  have hcount : compareTransformElements cur base =
      (Finset.univ.filter (fun i : Fin 16 =>
        cur i / base i ∉ Set.Icc (0.95 : ℚ) 1.05 ∧
          (0.5 : ℚ) < |cur i - base i|)).card := by
    rw [compareTransformElements]
    have h1 := foldl_if_count (fun i : Fin 16 =>
      (1 * cur i / base i > 1 + ERROR_THRESHOLD ∨
          1 * cur i / base i < 1 - ERROR_THRESHOLD) ∧
        |cur i - base i| > 10 * ERROR_THRESHOLD) (List.finRange 16) 0
    rw [h1, Nat.zero_add]
    have h2 : (Finset.univ.filter (fun i : Fin 16 =>
        cur i / base i ∉ Set.Icc (0.95 : ℚ) 1.05 ∧
          (0.5 : ℚ) < |cur i - base i|)).card =
        ((List.finRange 16).filter (fun i : Fin 16 => decide
          (cur i / base i ∉ Set.Icc (0.95 : ℚ) 1.05 ∧
            (0.5 : ℚ) < |cur i - base i|))).length := rfl
    rw [h2]
    congr 1
    apply List.filter_congr
    intro i _
    rw [decide_eq_decide]
    exact hequiv i
  refine ⟨hcount, ?_⟩
  rw [hcount, Finset.card_eq_zero, Finset.filter_eq_empty_iff]
  constructor
  · intro h i
    have hi := h (Finset.mem_univ i)
    rw [not_and_or, not_not, not_lt] at hi
    exact hi
  · intro h i _
    rw [not_and_or, not_not, not_lt]
    exact h i

theorem c9_mismatch_count_iff_ratio_and_difference_out_of_tolerance_witness :
    compareTransformElements (fun _ => 1) (fun _ => 1) = 0 :=
  (c9_mismatch_count_iff_ratio_and_difference_out_of_tolerance
      (fun _ => 1) (fun _ => 1)).2.mpr (by
    intro i
    left
    rw [Set.mem_Icc]
    norm_num)

/-! ## Full control flow of `CompareRegistrationResultsWithBaseline`

Embedded from the source (lines 241–318).  The XML reading collaborator
(`vtkXMLDataElement`, out of scope per the spec) is modelled by a plain
tree: `ReadElementFromFile` results are passed in as `Option Xml`
(`none` models a NULL return), `LookupElementWithName` searches the
subtree, `FindNestedElementWithName` searches the immediate children,
and `GetVectorAttribute("Transform", 16, _)` either fills the vector or
leaves the caller's zero-initialised array untouched. -/

/-- An XML element: name, optional 16-element `Transform` attribute, and
nested elements. -/
inductive Xml where
  | node (name : String) (transformAttr : Option (Fin 16 → ℚ))
      (children : List Xml)

def Xml.name : Xml → String
  | .node n _ _ => n

def Xml.transformAttr : Xml → Option (Fin 16 → ℚ)
  | .node _ a _ => a

def Xml.children : Xml → List Xml
  | .node _ _ c => c

/-- `FindNestedElementWithName`: first immediate child with the given
name. -/
def findNested (nm : String) (x : Xml) : Option Xml :=
  x.children.find? (fun c => decide (c.name = nm))

mutual

/-- `LookupElementWithName`: depth-first search of the nested elements
for the given name. -/
def lookupWithName (nm : String) : Xml → Option Xml
  | .node _ _ cs => lookupInList nm cs

def lookupInList (nm : String) : List Xml → Option Xml
  | [] => none
  | c :: rest =>
    if c.name = nm then some c
    else
      match lookupWithName nm c with
      | some r => some r
      | none => lookupInList nm rest

end

/-- Outcome of the comparison function: either the returned failure
count, or a crash from dereferencing a NULL element pointer. -/
inductive CmpOutcome where
  | crash
  | result (n : ℕ)
deriving DecidableEq

/-- Embedded from the source: the full control flow of
`CompareRegistrationResultsWithBaseline`.  `baselineFileName` and
`currentResultFileName` are the C-string arguments (`none` models a NULL
pointer) and `currentParse`/`baselineParse` the results of
`ReadElementFromFile` on them.  Note the faithful slip at line 280: after
reading the baseline file the code tests `baselineFileName == NULL`
rather than the parse result, and then calls `LookupElementWithName` on
the possibly-NULL baseline root, which is a crash. -/
def compareRegistrationResultsWithBaseline
    (baselineFileName : Option String) (currentParse baselineParse : Option Xml) :
    CmpOutcome :=
  -- double* transformCurrent / transformBaseline, zero-initialised
  let zeros : Fin 16 → ℚ := fun _ => 0
  match currentParse with
  | none => .result 1
  | some currentRoot =>
    match lookupWithName "PhantomDefinition" currentRoot with
    | none => .result 1
    | some phantomDefCurrent =>
      match findNested "Geometry" phantomDefCurrent with
      | none => .result 1
      | some geometryCurrent =>
        match findNested "Registration" geometryCurrent with
        | none => .result 1
        | some registrationCurrent =>
          let transformCurrent :=
            (registrationCurrent.transformAttr).getD zeros
          -- the null check after reading the baseline file tests the
          -- file NAME, not the parse result
          if baselineFileName = none then .result 1
          else
            match baselineParse with
            | none => .crash  -- LookupElementWithName on a NULL root
            | some baselineRoot =>
              match lookupWithName "PhantomDefinition" baselineRoot with
              | none => .result 1
              | some phantomDefBaseline =>
                match findNested "Geometry" phantomDefBaseline with
                | none => .result 1
                | some geometryBaseline =>
                  match findNested "Registration" geometryBaseline with
                  | none => .result 1
                  | some registrationBaseline =>
                    let transformBaseline :=
                      (registrationBaseline.transformAttr).getD zeros
                    .result (compareTransformElements
                      transformCurrent transformBaseline)

/-- A well-formed result tree, as `PhantomRegistrationTest.xml` would
contain: a `PhantomDefinition` section with `Geometry/Registration` and a
transform attribute. -/
def goodResultTree : Xml :=
  .node "PlusConfiguration" none
    [.node "PhantomDefinition" none
      [.node "Geometry" none
        [.node "Registration" (some (fun _ => 1)) []]]]

/-- C10: the source checks the current parse result for NULL but, at line
280, tests `baselineFileName == NULL` instead of the baseline parse
result; when the baseline file name is non-NULL and reading the baseline
file yields a NULL root element, the function dereferences the NULL root
instead of returning a positive failure count. -/
theorem c10_baseline_null_root_is_dereferenced
    : compareRegistrationResultsWithBaseline (some "baseline.xml")
        (some goodResultTree) none = .crash ∧
      ∀ n : ℕ, compareRegistrationResultsWithBaseline (some "baseline.xml")
        (some goodResultTree) none ≠ .result n := by
  constructor
  · rfl
  · intro n h
    rw [show compareRegistrationResultsWithBaseline (some "baseline.xml")
      (some goodResultTree) none = .crash from rfl] at h
    cases h

/-! ## Rigid point-set registration (spec-modelled)

Modelled from the spec: the Rigid Point-Set Registration engine (section
4.3) is not present in the source excerpt (only the test's call to
`vtkPhantomRegistrationAlgo::Register`), so it is modelled from the
specification text over `ℝ`.  The SVD-based rotation solver
(Kabsch/Horn's method) is modelled by its defining property: it returns a
special-orthogonal matrix minimising the least-squares cost over the
centred correspondences.  The spec's "near-zero spread" degeneracy check
is modelled as exact collinearity of the defined points. -/

abbrev Vec3 := Fin 3 → ℝ

abbrev Mat3 := Matrix (Fin 3) (Fin 3) ℝ

/-- Modelled from the spec: a landmark correspondence — a defined point, a
recorded point, and whether the sample was valid. -/
structure LandmarkPair where
  defined : Vec3
  recorded : Vec3
  valid : Bool

/-- Registration failures (spec section 7). -/
inductive RegError where
  | insufficientLandmarks
  | degenerateInput
deriving DecidableEq

/-- The correspondences that survive filtering of invalid samples. -/
def validPairs (ps : List LandmarkPair) : List LandmarkPair :=
  ps.filter (·.valid)

noncomputable def centroid (vs : List Vec3) : Vec3 :=
  ((vs.length : ℝ))⁻¹ • vs.sum

/-- Squared Euclidean norm of a vector. -/
def sqNorm (v : Vec3) : ℝ := v ⬝ᵥ v

/-- A rotation: an orthogonal matrix of determinant one (no scale or
shear). -/
def IsRot (R : Mat3) : Prop := Rᵀ * R = 1 ∧ R.det = 1

/-- Least-squares cost of a candidate rotation on the centred
correspondences. -/
noncomputable def cost (pairs : List (Vec3 × Vec3)) (R : Mat3) : ℝ :=
  (pairs.map (fun pr => sqNorm (R.mulVec pr.1 - pr.2))).sum

/-- The defining property of the rotation computed by Kabsch/Horn's
SVD-based method (with reflection correction): a rotation of least
squared error. -/
def IsOptimalRotation (pairs : List (Vec3 × Vec3)) (R : Mat3) : Prop :=
  IsRot R ∧ ∀ Q, IsRot Q → cost pairs R ≤ cost pairs Q

open scoped Classical

/-- Modelled from the spec: the rotation solver, specified by its
optimality property; when no optimum exists the identity stands in (the
fallback is never reached in the proved theorems). -/
noncomputable def kabschRotation (pairs : List (Vec3 × Vec3)) : Mat3 :=
  if h : ∃ R, IsOptimalRotation pairs R then h.choose else 1

/-- Modelled from the spec: the degeneracy check — the defined points are
collinear when all cross products of difference vectors vanish. -/
def CollinearPoints (vs : List Vec3) : Prop :=
  ∀ u ∈ vs, ∀ v ∈ vs, ∀ w ∈ vs, (v - u) ×₃ (w - u) = 0

/-- The 4x4 homogeneous matrix assembled from a rotation and a
translation. -/
def homogeneous (R : Mat3) (t : Vec3) : Matrix (Fin 4) (Fin 4) ℝ :=
  Matrix.of fun i j =>
    if hi : (i : ℕ) < 3 then
      if hj : (j : ℕ) < 3 then R ⟨i, hi⟩ ⟨j, hj⟩ else t ⟨i, hi⟩
    else
      if (j : ℕ) < 3 then 0 else 1

/-- A 4x4 rigid transform: rotation plus translation, no scale or
shear. -/
def RigidHomogeneous (m : Matrix (Fin 4) (Fin 4) ℝ) : Prop :=
  ∃ R t, IsRot R ∧ m = homogeneous R t

/-- Modelled from the spec: `Register` filters invalid samples, fails
with `InsufficientLandmarks` below three valid correspondences and with
`DegenerateInput` on collinear defined points, and otherwise
centroid-subtracts both point sets, solves for the optimal rotation,
recovers the translation from the centroid difference, and returns the
4x4 rigid transform together with the RMS residual over all
correspondences. -/
noncomputable def Register (ps : List LandmarkPair) :
    Except RegError (Matrix (Fin 4) (Fin 4) ℝ × ℝ) :=
  let vp := validPairs ps
  if vp.length < 3 then .error .insufficientLandmarks
  else if CollinearPoints (vp.map (·.defined)) then .error .degenerateInput
  else
    let cd := centroid (vp.map (·.defined))
    let cr := centroid (vp.map (·.recorded))
    let R := kabschRotation (vp.map (fun p => (p.defined - cd, p.recorded - cr)))
    let t := cr - R.mulVec cd
    .ok (homogeneous R t,
      Real.sqrt
        ((vp.map (fun p => sqNorm (R.mulVec p.defined + t - p.recorded))).sum /
          vp.length))

/-- The rigid transform of claim C5: rotation by 30 degrees about the Z
axis. -/
noncomputable def rot30Z : Mat3 :=
  !![Real.sqrt 3 / 2, -(1 / 2), 0;
     1 / 2, Real.sqrt 3 / 2, 0;
     0, 0, 1]

/-- The translation of claim C5: `(10, 5, 0)`. -/
def transl105 : Vec3 := ![10, 5, 0]

/-! ### Rotation lemmas -/

theorem isRot_one : IsRot 1 := by
  constructor
  · rw [Matrix.transpose_one, Matrix.one_mul]
  · exact Matrix.det_one

theorem kabschRotation_isRot (pairs : List (Vec3 × Vec3)) :
    IsRot (kabschRotation pairs) := by
  rw [kabschRotation]
  split
  · next h => exact h.choose_spec.1
  · exact isRot_one

theorem sqNorm_nonneg (v : Vec3) : 0 ≤ sqNorm v := by
  show (0 : ℝ) ≤ ∑ i : Fin 3, v i * v i
  exact Finset.sum_nonneg fun i _ => mul_self_nonneg (v i)

theorem sqNorm_eq_zero {v : Vec3} (h : sqNorm v = 0) : v = 0 :=
  Matrix.dotProduct_self_eq_zero.mp h

theorem cost_nonneg (pairs : List (Vec3 × Vec3)) (R : Mat3) :
    0 ≤ cost pairs R := by
  apply List.sum_nonneg
  intro x hx
  rcases List.mem_map.mp hx with ⟨pr, _, hpr⟩
  rw [← hpr]
  exact sqNorm_nonneg _

theorem list_sum_zero_of_nonneg {l : List ℝ} (h0 : ∀ x ∈ l, 0 ≤ x)
    (hs : l.sum = 0) : ∀ x ∈ l, x = 0 := by
  induction l with
  | nil => intro x hx; cases hx
  | cons y ys ih =>
    rw [List.sum_cons] at hs
    have hy : 0 ≤ y := h0 y (List.mem_cons_self _ _)
    have hys : 0 ≤ ys.sum :=
      List.sum_nonneg fun x hx => h0 x (List.mem_cons_of_mem _ hx)
    have hy0 : y = 0 := by linarith
    have hsum0 : ys.sum = 0 := by linarith
    intro x hx
    rcases List.mem_cons.mp hx with hx | hx
    · rw [hx, hy0]
    · exact ih (fun z hz => h0 z (List.mem_cons_of_mem _ hz)) hsum0 x hx

theorem rot_mulVec_dotProduct {M : Mat3} (hM : Mᵀ * M = 1) (u v : Vec3) :
    M.mulVec u ⬝ᵥ M.mulVec v = u ⬝ᵥ v := by
  rw [Matrix.dotProduct_mulVec, ← Matrix.mulVec_transpose,
    Matrix.mulVec_mulVec, hM, Matrix.one_mulVec]

/-- The 3x3 matrix with the three given rows. -/
def rowsOf (u v w : Vec3) : Mat3 := Matrix.of ![u, v, w]

theorem det_rowsOf (u v w : Vec3) :
    (rowsOf u v w).det = u ⬝ᵥ v ×₃ w :=
  (triple_product_eq_det u v w).symm

theorem rows_mulVec_eq_mul_transpose (M : Mat3) (x a b : Vec3) :
    rowsOf (M.mulVec x) (M.mulVec a) (M.mulVec b) = rowsOf x a b * Mᵀ := by
  ext i j
  fin_cases i <;>
    simp [rowsOf, Matrix.mul_apply, Matrix.mulVec, Matrix.dotProduct,
      Matrix.transpose_apply, mul_comm]

theorem crossProduct_rot_equivariant {M : Mat3} (hM : IsRot M)
    (a b : Vec3) :
    M.mulVec (a ×₃ b) = (M.mulVec a) ×₃ (M.mulVec b) := by
  obtain ⟨horth, hdet⟩ := hM
  have hMMt : M * Mᵀ = 1 := Matrix.mul_eq_one_comm.mp horth
  have hdot : ∀ x : Vec3,
      (M.mulVec (a ×₃ b) - (M.mulVec a) ×₃ (M.mulVec b)) ⬝ᵥ M.mulVec x = 0 := by
    intro x
    rw [Matrix.sub_dotProduct]
    have h1 : M.mulVec (a ×₃ b) ⬝ᵥ M.mulVec x = (a ×₃ b) ⬝ᵥ x :=
      rot_mulVec_dotProduct horth _ _
    have h2 : (M.mulVec a) ×₃ (M.mulVec b) ⬝ᵥ M.mulVec x = (a ×₃ b) ⬝ᵥ x := by
      rw [Matrix.dotProduct_comm, triple_product_eq_det]
      change (rowsOf (M.mulVec x) (M.mulVec a) (M.mulVec b)).det = _
      rw [rows_mulVec_eq_mul_transpose, Matrix.det_mul, Matrix.det_transpose,
        hdet, mul_one, det_rowsOf, Matrix.dotProduct_comm]
    rw [h1, h2, sub_self]
  have hd := hdot (Mᵀ.mulVec (M.mulVec (a ×₃ b) - (M.mulVec a) ×₃ (M.mulVec b)))
  rw [Matrix.mulVec_mulVec, hMMt, Matrix.one_mulVec] at hd
  have hzero := Matrix.dotProduct_self_eq_zero.mp hd
  exact sub_eq_zero.mp hzero

theorem eq_one_of_fixes_basis {M : Mat3} {u v : Vec3}
    (hc : u ×₃ v ≠ 0)
    (hu : M.mulVec u = u) (hv : M.mulVec v = v)
    (hw : M.mulVec (u ×₃ v) = u ×₃ v) : M = 1 := by
  have hcols : ∀ j : Fin 3,
      M.mulVec (![u ×₃ v, u, v] j) = ![u ×₃ v, u, v] j := by
    intro j
    fin_cases j
    · exact hw
    · exact hu
    · exact hv
  have hMB : M * (rowsOf (u ×₃ v) u v)ᵀ = (rowsOf (u ×₃ v) u v)ᵀ := by
    ext i j
    have h1 : (M * (rowsOf (u ×₃ v) u v)ᵀ) i j =
        (M.mulVec (![u ×₃ v, u, v] j)) i := by
      simp only [rowsOf, Matrix.mul_apply, Matrix.mulVec, Matrix.dotProduct,
        Matrix.transpose_apply, Matrix.of_apply]
    rw [h1, hcols j, Matrix.transpose_apply]
    rfl
  have hdetB : ((rowsOf (u ×₃ v) u v)ᵀ).det ≠ 0 := by
    rw [Matrix.det_transpose, det_rowsOf]
    intro h0
    exact hc (Matrix.dotProduct_self_eq_zero.mp h0)
  have hunit : IsUnit ((rowsOf (u ×₃ v) u v)ᵀ).det :=
    isUnit_iff_ne_zero.mpr hdetB
  calc M = M * ((rowsOf (u ×₃ v) u v)ᵀ * ((rowsOf (u ×₃ v) u v)ᵀ)⁻¹) := by
        rw [Matrix.mul_nonsing_inv _ hunit, Matrix.mul_one]
    _ = (M * (rowsOf (u ×₃ v) u v)ᵀ) * ((rowsOf (u ×₃ v) u v)ᵀ)⁻¹ := by
        rw [Matrix.mul_assoc]
    _ = (rowsOf (u ×₃ v) u v)ᵀ * ((rowsOf (u ×₃ v) u v)ᵀ)⁻¹ := by
        rw [hMB]
    _ = 1 := Matrix.mul_nonsing_inv _ hunit

theorem rot_eq_of_agree {R Q : Mat3} (hR : IsRot R) (hQ : IsRot Q)
    {u v : Vec3} (hc : u ×₃ v ≠ 0)
    (hu : R.mulVec u = Q.mulVec u) (hv : R.mulVec v = Q.mulVec v) :
    R = Q := by
  have hRRt : R * Rᵀ = 1 := Matrix.mul_eq_one_comm.mp hR.1
  set M : Mat3 := Rᵀ * Q with hM
  have hMrot : IsRot M := by
    constructor
    · rw [hM, Matrix.transpose_mul, Matrix.transpose_transpose,
        Matrix.mul_assoc, ← Matrix.mul_assoc R, hRRt, Matrix.one_mul, hQ.1]
    · rw [hM, Matrix.det_mul, Matrix.det_transpose, hR.2, hQ.2, mul_one]
  have hfix : ∀ x : Vec3, R.mulVec x = Q.mulVec x → M.mulVec x = x := by
    intro x hx
    rw [hM, ← Matrix.mulVec_mulVec, ← hx, Matrix.mulVec_mulVec, hR.1,
      Matrix.one_mulVec]
  have hMu : M.mulVec u = u := hfix u hu
  have hMv : M.mulVec v = v := hfix v hv
  have hMw : M.mulVec (u ×₃ v) = u ×₃ v := by
    rw [crossProduct_rot_equivariant hMrot, hMu, hMv]
  have hM1 : M = 1 := eq_one_of_fixes_basis hc hMu hMv hMw
  have : R * (Rᵀ * Q) = R * 1 := by rw [← hM, hM1]
  rw [← Matrix.mul_assoc, hRRt, Matrix.one_mul, Matrix.mul_one] at this
  exact this.symm

theorem sqNorm_zero : sqNorm (0 : Vec3) = 0 := Matrix.zero_dotProduct 0

theorem sum_map_rigid (vs : List Vec3) (R : Mat3) (t : Vec3) :
    (vs.map fun v => R.mulVec v + t).sum =
      R.mulVec vs.sum + (vs.length : ℝ) • t := by
  induction vs with
  | nil => simp [Matrix.mulVec_zero]
  | cons v rest ih =>
    simp only [List.map_cons, List.sum_cons, ih, List.length_cons,
      Matrix.mulVec_add]
    push_cast
    rw [add_smul, one_smul]
    abel

theorem centroid_map_rigid (vs : List Vec3) (hne : vs ≠ []) (R : Mat3)
    (t : Vec3) :
    centroid (vs.map fun v => R.mulVec v + t) = R.mulVec (centroid vs) + t := by
  have hn : (vs.length : ℝ) ≠ 0 := by
    rw [Nat.cast_ne_zero]
    intro h0
    exact hne (List.length_eq_zero.mp h0)
  rw [centroid, centroid, List.length_map, sum_map_rigid, smul_add,
    ← Matrix.mulVec_smul, smul_smul, inv_mul_cancel₀ hn, one_smul]

/-- A rotation about the Z axis, given a point on the unit circle. -/
theorem isRot_rotZ (c s : ℝ) (h : c ^ 2 + s ^ 2 = 1) :
    IsRot !![c, -s, 0; s, c, 0; 0, 0, 1] := by
  have htr : (!![c, -s, 0; s, c, 0; 0, 0, 1] : Mat3)ᵀ =
      !![c, s, 0; -s, c, 0; 0, 0, 1] := by
    ext i j
    fin_cases i <;> fin_cases j <;> rfl
  constructor
  · rw [htr]
    ext i j
    fin_cases i <;> fin_cases j <;>
      simp [Matrix.mul_apply, Fin.sum_univ_three, Matrix.one_apply] <;>
      first
        | linear_combination h
        | linear_combination (-1 : ℝ) * h
        | ring
  · rw [Matrix.det_fin_three]
    norm_num
    linear_combination h

theorem isRot_rot30Z : IsRot rot30Z := by
  have h : (Real.sqrt 3 / 2) ^ 2 + (1 / 2 : ℝ) ^ 2 = 1 := by
    rw [div_pow, Real.sq_sqrt (by norm_num : (0 : ℝ) ≤ 3)]
    norm_num
  exact isRot_rotZ (Real.sqrt 3 / 2) (1 / 2) h

theorem register_exact_recovery
    (ps : List LandmarkPair) (R₀ : Mat3) (t₀ : Vec3) (hrot : IsRot R₀)
    (hlen : 3 ≤ ps.length)
    (hvalid : ∀ p ∈ ps, p.valid = true)
    (hrec : ∀ p ∈ ps, p.recorded = R₀.mulVec p.defined + t₀)
    (hnc : ¬ CollinearPoints (ps.map (·.defined))) :
    Register ps = .ok (homogeneous R₀ t₀, 0) := by
  have hvp : validPairs ps = ps :=
    List.filter_eq_self.mpr (fun p hp => by rw [hvalid p hp])
  have hne : ps ≠ [] := by
    intro h0
    rw [h0] at hlen
    simp at hlen
  have hmapne : ps.map (·.defined) ≠ [] := by
    intro h0
    exact hne (List.map_eq_nil_iff.mp h0)
  set cd := centroid (ps.map (·.defined)) with hcd
  set cr := centroid (ps.map (·.recorded)) with hcrdef
  have hcr : cr = R₀.mulVec cd + t₀ := by
    rw [hcrdef, hcd]
    have hmap : ps.map (·.recorded) =
        (ps.map (·.defined)).map (fun v => R₀.mulVec v + t₀) := by
      rw [List.map_map]
      exact List.map_congr_left (fun p hp => hrec p hp)
    rw [hmap, centroid_map_rigid _ hmapne]
  set cent := ps.map (fun p => (p.defined - cd, p.recorded - cr)) with hcent
  have hcent2 : ∀ pr ∈ cent, pr.2 = R₀.mulVec pr.1 := by
    intro pr hpr
    rw [hcent] at hpr
    rcases List.mem_map.mp hpr with ⟨p, hp, hpr2⟩
    rw [← hpr2]
    show p.recorded - cr = R₀.mulVec (p.defined - cd)
    rw [hrec p hp, hcr, Matrix.mulVec_sub]
    abel
  have hcost0 : cost cent R₀ = 0 := by
    rw [cost]
    apply List.sum_eq_zero
    intro x hx
    rcases List.mem_map.mp hx with ⟨pr, hpr, hx2⟩
    rw [← hx2, hcent2 pr hpr, sub_self, sqNorm_zero]
  have hex : ∃ R, IsOptimalRotation cent R :=
    ⟨R₀, ⟨hrot, fun Q _ => by rw [hcost0]; exact cost_nonneg cent Q⟩⟩
  have hkab : kabschRotation cent = R₀ := by
    rw [kabschRotation, dif_pos hex]
    have hspec := hex.choose_spec
    have hle : cost cent hex.choose ≤ 0 := by
      have h1 := hspec.2 R₀ hrot
      rwa [hcost0] at h1
    have hc0 : cost cent hex.choose = 0 :=
      le_antisymm hle (cost_nonneg _ _)
    rw [cost] at hc0
    have hterms : ∀ pr ∈ cent, hex.choose.mulVec pr.1 = pr.2 := by
      intro pr hpr
      have hz := list_sum_zero_of_nonneg
        (fun x hx => by
          rcases List.mem_map.mp hx with ⟨q, _, hx2⟩
          rw [← hx2]
          exact sqNorm_nonneg _)
        hc0
        (sqNorm (hex.choose.mulVec pr.1 - pr.2))
        (List.mem_map_of_mem _ hpr)
      exact sub_eq_zero.mp (sqNorm_eq_zero hz)
    have hagree : ∀ p ∈ ps,
        hex.choose.mulVec (p.defined - cd) = R₀.mulVec (p.defined - cd) := by
      intro p hp
      have hm : (p.defined - cd, p.recorded - cr) ∈ cent := by
        rw [hcent]
        exact List.mem_map_of_mem _ hp
      exact (hterms _ hm).trans (hcent2 _ hm)
    have hncw := hnc
    rw [CollinearPoints] at hncw
    push_neg at hncw
    obtain ⟨u, hu, v, hv, w, hw, hcross⟩ := hncw
    rcases List.mem_map.mp hu with ⟨pu, hpu, hpu2⟩
    rcases List.mem_map.mp hv with ⟨pv, hpv, hpv2⟩
    rcases List.mem_map.mp hw with ⟨pw, hpw, hpw2⟩
    have h1 : hex.choose.mulVec (v - cd) = R₀.mulVec (v - cd) := by
      rw [← hpv2]
      exact hagree pv hpv
    have h2 : hex.choose.mulVec (u - cd) = R₀.mulVec (u - cd) := by
      rw [← hpu2]
      exact hagree pu hpu
    have h3 : hex.choose.mulVec (w - cd) = R₀.mulVec (w - cd) := by
      rw [← hpw2]
      exact hagree pw hpw
    have hvu : hex.choose.mulVec (v - u) = R₀.mulVec (v - u) := by
      have hsplit : v - u = (v - cd) - (u - cd) := by abel
      calc hex.choose.mulVec (v - u)
          = hex.choose.mulVec ((v - cd) - (u - cd)) := by rw [← hsplit]
        _ = hex.choose.mulVec (v - cd) - hex.choose.mulVec (u - cd) :=
            Matrix.mulVec_sub _ _ _
        _ = R₀.mulVec (v - cd) - R₀.mulVec (u - cd) := by rw [h1, h2]
        _ = R₀.mulVec ((v - cd) - (u - cd)) := (Matrix.mulVec_sub _ _ _).symm
        _ = R₀.mulVec (v - u) := by rw [← hsplit]
    have hwu : hex.choose.mulVec (w - u) = R₀.mulVec (w - u) := by
      have hsplit : w - u = (w - cd) - (u - cd) := by abel
      calc hex.choose.mulVec (w - u)
          = hex.choose.mulVec ((w - cd) - (u - cd)) := by rw [← hsplit]
        _ = hex.choose.mulVec (w - cd) - hex.choose.mulVec (u - cd) :=
            Matrix.mulVec_sub _ _ _
        _ = R₀.mulVec (w - cd) - R₀.mulVec (u - cd) := by rw [h3, h2]
        _ = R₀.mulVec ((w - cd) - (u - cd)) := (Matrix.mulVec_sub _ _ _).symm
        _ = R₀.mulVec (w - u) := by rw [← hsplit]
    exact rot_eq_of_agree hspec.1 hrot hcross hvu hwu
  unfold Register
  rw [hvp]
  rw [if_neg (by omega : ¬ ps.length < 3)]
  rw [if_neg hnc]
  rw [← hcd, ← hcrdef]
  dsimp only
  rw [← hcent, hkab]
  have ht : cr - R₀.mulVec cd = t₀ := by
    rw [hcr]
    abel
  rw [ht]
  have hsum : (ps.map fun p =>
      sqNorm (R₀.mulVec p.defined + t₀ - p.recorded)).sum = 0 := by
    apply List.sum_eq_zero
    intro x hx
    rcases List.mem_map.mp hx with ⟨p, hp, hx2⟩
    rw [← hx2, hrec p hp, sub_self, sqNorm_zero]
  rw [hsum, zero_div, Real.sqrt_zero]

theorem register_ok_rigid (qs : List LandmarkPair)
    (m : Matrix (Fin 4) (Fin 4) ℝ) (r : ℝ)
    (h : Register qs = .ok (m, r)) : RigidHomogeneous m := by
  unfold Register at h
  dsimp only at h
  by_cases h1 : (validPairs qs).length < 3
  · rw [if_pos h1] at h
    cases h
  · rw [if_neg h1] at h
    by_cases h2 : CollinearPoints ((validPairs qs).map (·.defined))
    · rw [if_pos h2] at h
      cases h
    · rw [if_neg h2] at h
      have hm := congrArg Prod.fst (Except.ok.inj h)
      exact ⟨_, _, kabschRotation_isRot _, hm.symm⟩

/-- Cross products of vectors confined to the X axis vanish. -/
theorem cross_zero_of_axis {a b : Vec3} (ha1 : a 1 = 0) (ha2 : a 2 = 0)
    (hb1 : b 1 = 0) (hb2 : b 2 = 0) : a ×₃ b = 0 := by
  funext i
  fin_cases i <;> simp [cross_apply, ha1, ha2, hb1, hb2]

/-- Eight collinear landmark pairs, lying on the X axis, with recorded
points generated exactly by the claim's rigid transform with zero
noise. -/
noncomputable def c5CollinearInput : List LandmarkPair :=
  (List.range 8).map (fun k =>
    ⟨![(k : ℝ), 0, 0], rot30Z.mulVec ![(k : ℝ), 0, 0] + transl105, true⟩)

theorem c5CollinearInput_defined_axis :
    ∀ x ∈ c5CollinearInput.map (·.defined), x 1 = 0 ∧ x 2 = 0 := by
  intro x hx
  rw [c5CollinearInput, List.map_map] at hx
  rcases List.mem_map.mp hx with ⟨k, _, hk⟩
  rw [← hk]
  constructor <;> rfl

/-- C5 counterexample: this input satisfies every hypothesis of the
claim as stated — eight valid landmark pairs whose recorded points are
the defined points moved by the rotation of 30 degrees about Z and the
translation `(10, 5, 0)`, with zero noise — yet registration does not
succeed: the defined points are collinear, so `Register` fails with
`DegenerateInput` instead of returning the transform. -/
theorem c5_collinear_zero_noise_input_fails_with_degenerateInput :
    (c5CollinearInput.length = 8 ∧
      ∀ p ∈ c5CollinearInput, p.valid = true ∧
        p.recorded = rot30Z.mulVec p.defined + transl105) ∧
    Register c5CollinearInput = .error .degenerateInput := by
  have hmem : ∀ p ∈ c5CollinearInput, p.valid = true ∧
      p.recorded = rot30Z.mulVec p.defined + transl105 := by
    intro p hp
    rw [c5CollinearInput] at hp
    rcases List.mem_map.mp hp with ⟨k, _, hk⟩
    rw [← hk]
    exact ⟨rfl, rfl⟩
  refine ⟨⟨rfl, hmem⟩, ?_⟩
  have hvp : validPairs c5CollinearInput = c5CollinearInput :=
    List.filter_eq_self.mpr (fun p hp => by rw [(hmem p hp).1])
  have hcol : CollinearPoints (c5CollinearInput.map (·.defined)) := by
    intro u hu v hv w hw
    have hu2 := c5CollinearInput_defined_axis u hu
    have hv2 := c5CollinearInput_defined_axis v hv
    have hw2 := c5CollinearInput_defined_axis w hw
    apply cross_zero_of_axis
    · show v 1 - u 1 = 0
      rw [hv2.1, hu2.1, sub_zero]
    · show v 2 - u 2 = 0
      rw [hv2.2, hu2.2, sub_zero]
    · show w 1 - u 1 = 0
      rw [hw2.1, hu2.1, sub_zero]
    · show w 2 - u 2 = 0
      rw [hw2.2, hu2.2, sub_zero]
  unfold Register
  rw [hvp]
  rw [if_neg (by
    have h8 : c5CollinearInput.length = 8 := rfl
    omega)]
  rw [if_pos hcol]

/-- C5 (amended: the defined point set must not be collinear — the
counterexample shows the claim is false for collinear point sets, which
the spec itself routes to `DegenerateInput`): for every defined point set
of 8 landmarks whose recorded points are generated by the rigid transform
`T` (rotation 30 degrees about Z, translation `(10, 5, 0)`) with zero
noise and whose defined points are not collinear, registration succeeds
and returns exactly `T` with RMS residual `0`; moreover every successful
`Register` output is a rigid 4x4 transform (rotation plus translation, no
scale or shear) together with the RMS residual. -/
theorem c5_registration_roundtrip_recovers_transform_and_output_rigid :
    (∀ ps : List LandmarkPair,
      ps.length = 8 →
      (∀ p ∈ ps, p.valid = true) →
      (∀ p ∈ ps, p.recorded = rot30Z.mulVec p.defined + transl105) →
      ¬ CollinearPoints (ps.map (·.defined)) →
      Register ps = .ok (homogeneous rot30Z transl105, 0)) ∧
    (∀ qs m r, Register qs = .ok (m, r) → RigidHomogeneous m) := by
  constructor
  · intro ps h8 hv hr hnc
    exact register_exact_recovery ps rot30Z transl105 isRot_rot30Z
      (by omega) hv hr hnc
  · intro qs m r h
    exact register_ok_rigid qs m r h

/-- The eight non-collinear phantom corners used by the C5 witness. -/
def c5Points : List Vec3 :=
  [![0, 0, 0], ![1, 0, 0], ![0, 1, 0], ![0, 0, 1],
   ![1, 1, 0], ![1, 0, 1], ![0, 1, 1], ![1, 1, 1]]

/-- The C5 witness input: the eight corners with recorded points produced
by the claim's transform, all valid. -/
noncomputable def c5GoodInput : List LandmarkPair :=
  c5Points.map (fun d => ⟨d, rot30Z.mulVec d + transl105, true⟩)

theorem c5_registration_roundtrip_recovers_transform_witness :
    Register c5GoodInput = .ok (homogeneous rot30Z transl105, 0) := by
  have hproj : c5GoodInput.map (·.defined) = c5Points := by
    rw [c5GoodInput, List.map_map]
    rfl
  apply c5_registration_roundtrip_recovers_transform_and_output_rigid.1
  · rw [c5GoodInput, List.length_map]
    rfl
  · intro p hp
    rw [c5GoodInput] at hp
    rcases List.mem_map.mp hp with ⟨d, _, hd⟩
    rw [← hd]
  · intro p hp
    rw [c5GoodInput] at hp
    rcases List.mem_map.mp hp with ⟨d, _, hd⟩
    rw [← hd]
  · intro hcol
    rw [hproj] at hcol
    have h := hcol ![0, 0, 0] (by simp [c5Points]) ![1, 0, 0]
      (by simp [c5Points]) ![0, 1, 0] (by simp [c5Points])
    have h2 := congrFun h 2
    simp [cross_apply] at h2

/-! ### Claim C6 -/

/-- C6: for every registration input in which fewer than three valid
correspondences remain after filtering invalid samples, `Register` fails
with `InsufficientLandmarks` rather than producing a transform. -/
theorem c6_fewer_than_three_valid_fails_insufficientLandmarks
    (ps : List LandmarkPair) (h : (validPairs ps).length < 3) :
    Register ps = .error .insufficientLandmarks := by
  unfold Register
  rw [if_pos h]

/-- The C6 witness input: two valid pairs and one invalid pair. -/
def c6Input : List LandmarkPair :=
  [⟨![0, 0, 0], ![1, 0, 0], true⟩,
   ⟨![1, 0, 0], ![2, 0, 0], true⟩,
   ⟨![0, 1, 0], ![1, 1, 0], false⟩]

theorem c6_fewer_than_three_valid_fails_insufficientLandmarks_witness :
    Register c6Input = .error .insufficientLandmarks :=
  c6_fewer_than_three_valid_fails_insufficientLandmarks c6Input (by
    have h2 : (validPairs c6Input).length = 2 := rfl
    omega)

end PlusSpec
